import Mathlib

/-!
Shallow embedding of the avro container reader in `dask/bag/avro.py`.

A byte source (`io.BytesIO`-style file object) is modelled as the list of
bytes still to be read; functions return the value read together with the
remaining bytes.  `read_header` is modelled on the whole file contents
(the call sites open a fresh file, so it always runs from position 0), and
the stream position after a call equals the original length minus the
length of the returned remainder.  Machine integers are `Nat`/`Int`
(Python integers are unbounded).  Failures (`assert`, `ord` of an empty
read) are modelled with `Except`.
-/

namespace DaskAvro

/-- The 4-byte avro magic marker, Python `MAGIC = b'Obj\x01'`. -/
def MAGIC : List Nat := [0x4F, 0x62, 0x6A, 0x01]

/-- Python `SYNC_SIZE = 16`, the size of the synchronization token. -/
def SYNC_SIZE : Nat := 16

/-- Failure conditions of the reader: the failed `assert` on the magic
bytes, and `ord` applied to the empty bytestring returned by `read` at
end of stream. -/
inductive Err where
  | badMagic
  | unexpectedEndOfStream
deriving DecidableEq

/-- Equality of `Except` results is decidable; used to evaluate the
reader on concrete byte streams inside witnesses. -/
instance {e : Type u_1} {a : Type u_2} [DecidableEq e] [DecidableEq a] :
    DecidableEq (Except e a) := fun x y =>
  match x, y with
  | .error u, .error v => decidable_of_iff (u = v) (by simp)
  | .ok u, .ok v => decidable_of_iff (u = v) (by simp)
  | .error _, .ok _ => isFalse fun hc => by cases hc
  | .ok _, .error _ => isFalse fun hc => by cases hc

/-- Python `fo.read(size)` on a bytes stream: a negative size reads all
remaining bytes (the `io.BytesIO` convention), otherwise at most `size`
bytes are returned, fewer when the stream is short.  Returns the bytes
read and the remaining stream. -/
def readN (size : Int) (data : List Nat) : List Nat × List Nat :=
  if size < 0 then (data, [])
  else (data.take size.toNat, data.drop size.toNat)

/-- The zig-zag decoding expression `(n >> 1) ^ -(n & 1)` returned by
`read_long`; the accumulated magnitude `n` is non-negative, so the two
shifts/masks are computed in `Nat` and the exclusive-or in `Int`. -/
def zigzagDecode (n : Nat) : Int :=
  Int.xor ((n >>> 1 : Nat) : Int) (-((n &&& 1 : Nat) : Int))

/-- The `while (b & 0x80) != 0` loop of `read_long`: `b` is the byte read
last, `n` the magnitude accumulated so far, `shift` the next shift
amount.  Reading a byte from an exhausted stream is `ord(b'')`, an
error. -/
def readLongAux (b n shift : Nat) : List Nat → Except Err (Nat × List Nat)
  | [] =>
    if b &&& 0x80 ≠ 0 then .error .unexpectedEndOfStream
    else .ok (n, [])
  | b' :: rest =>
    if b &&& 0x80 ≠ 0 then
      readLongAux b' (n ||| ((b' &&& 0x7F) <<< shift)) (shift + 7) rest
    else .ok (n, b' :: rest)

/-- Python `read_long(fo)`: variable-length, zig-zag decoding of one
signed integer. -/
def read_long (data : List Nat) : Except Err (Int × List Nat) :=
  match data with
  | [] => .error .unexpectedEndOfStream
  | b :: rest =>
    match readLongAux b (b &&& 0x7F) 7 rest with
    | .error e => .error e
    | .ok (n, rem) => .ok (zigzagDecode n, rem)

/-- Python `read_bytes(fo)`: a long followed by that many bytes of
data.  The size returned by `read_long` is passed to `fo.read`
unchecked. -/
def read_bytes (data : List Nat) : Except Err (List Nat × List Nat) :=
  match read_long data with
  | .error e => .error e
  | .ok (size, rest) => .ok (readN size rest)

/-- The `for i in range(n_keys)` body of `read_header`: each entry is a
framed key and a framed value, both read and discarded. -/
def skipEntries : Nat → List Nat → Except Err (List Nat)
  | 0, data => .ok data
  | k + 1, data =>
    match read_bytes data with
    | .error e => .error e
    | .ok (_, d1) =>
      match read_bytes d1 with
      | .error e => .error e
      | .ok (_, d2) => skipEntries k d2

/-- The `while True` metadata loop of `read_header`, with explicit
fuel: each iteration consumes at least one byte via `read_long`, so
`data.length + 1` iterations always suffice (`readMetaLoopAux_fuel`
below shows the result does not depend on the fuel once it is
sufficient).  A negative count makes `range(n_keys)` empty, so the
loop just reads the next count. -/
def readMetaLoopAux : Nat → List Nat → Except Err (List Nat)
  | 0, _ => .error .unexpectedEndOfStream
  | fuel + 1, data =>
    match read_long data with
    | .error e => .error e
    | .ok (n_keys, rest) =>
      if n_keys = 0 then .ok rest
      else
        match skipEntries n_keys.toNat rest with
        | .error e => .error e
        | .ok d2 => readMetaLoopAux fuel d2

/-- The metadata loop of `read_header`, started with sufficient fuel. -/
def readMetaLoop (data : List Nat) : Except Err (List Nat) :=
  readMetaLoopAux (data.length + 1) data

/-- The dict returned by `read_header`: `meta` (never populated by this
reader, which discards the key/value frames), the 16-byte `sync` token,
`header_size = fo.tell()` after the sync token, and `head_bytes`, the
file's first `header_size` bytes re-read after `fo.seek(0)`. -/
structure Header where
  meta : List (List Nat × List Nat)
  sync : List Nat
  header_size : Nat
  head_bytes : List Nat
deriving DecidableEq

/-- Python `read_header(fo)` on a freshly opened file: assert the magic
bytes, skip the metadata blocks until a zero count, read the sync token,
record the position, and re-read the header bytes from offset 0.
Returns the header and the remaining stream (the file past position
`header_size`, where the final `fo.read(header_size)` leaves it). -/
def read_header (data : List Nat) : Except Err (Header × List Nat) :=
  if (readN 4 data).1 ≠ MAGIC then .error .badMagic
  else
    match readMetaLoop (readN 4 data).2 with
    | .error e => .error e
    | .ok d1 =>
      let sync := (readN (SYNC_SIZE : Int) d1).1
      let d2 := (readN (SYNC_SIZE : Int) d1).2
      let header_size := data.length - d2.length
      .ok ({ meta := [], sync := sync, header_size := header_size,
             head_bytes := (readN (header_size : Int) data).1 },
           (readN (header_size : Int) data).2)

/-- The chunk reconstruction in `read_chunk`: the buffer returned by
`read_block` is passed to the decoder unchanged when it starts with the
magic bytes, and otherwise with `head['head_bytes']` prepended. -/
def read_chunk (head : Header) (chunk : List Nat) : List Nat :=
  if MAGIC.isPrefixOf chunk then chunk
  else head.head_bytes ++ chunk

/-- The per-file partition planning loop of `read_avro`:
`off = list(range(0, size, blocksize))` paired with
`length = [blocksize] * len(off)`.  `range(0, size, blocksize)` has
`(size + blocksize - 1) / blocksize` elements when `blocksize > 0`. -/
def read_avro_plan (size blocksize : Nat) : List (Nat × Nat) :=
  (List.range' 0 ((size + blocksize - 1) / blocksize) blocksize).map
    fun o => (o, blocksize)

/-! Reference encoders for the container header, written from the format
description: zig-zag then 7-bit little-endian varint for longs, a long
length prefix for framed bytes, count-prefixed metadata blocks ended by
a zero count, then the sync token.  These generate the well-formed
header streams the header-reader theorems quantify over. -/

/-- Zig-zag encoding of a signed integer as an unsigned magnitude. -/
def zigzagEncode (i : Int) : Nat :=
  if 0 ≤ i then 2 * i.toNat else 2 * (-i).toNat - 1

/-- Varint encoding of a magnitude, 7 bits per byte, low bits first,
high bit of every byte but the last set.  The first argument is fuel;
`n` itself is always enough since `n / 128 < n` for `n ≥ 128`. -/
def encodeVarintAux : Nat → Nat → List Nat
  | 0, n => [n]
  | fuel + 1, n => if n < 128 then [n] else (128 + n % 128) :: encodeVarintAux fuel (n / 128)

/-- Varint encoding of a magnitude. -/
def encodeVarint (n : Nat) : List Nat := encodeVarintAux n n

/-- Encoding of one signed long: zig-zag then varint. -/
def encodeLong (i : Int) : List Nat := encodeVarint (zigzagEncode i)

/-- Encoding of a framed byte sequence: long length prefix, then the
bytes. -/
def encodeBytes (bs : List Nat) : List Nat := encodeLong bs.length ++ bs

/-- Encoding of one metadata block: entry count, then each entry's
framed key and framed value. -/
def encodeMetaBlock (entries : List (List Nat × List Nat)) : List Nat :=
  encodeLong entries.length ++
    entries.flatMap fun kv => encodeBytes kv.1 ++ encodeBytes kv.2

/-- A well-formed header byte stream: magic, metadata blocks, the
terminating zero count, then the sync token. -/
def headerBytes (blocks : List (List (List Nat × List Nat))) (sync : List Nat) : List Nat :=
  MAGIC ++ blocks.flatMap encodeMetaBlock ++ encodeLong 0 ++ sync

/-! Stream-consumption bounds: every reader only removes bytes from the
front of the stream, and `read_long` always consumes at least one. -/

lemma readN_snd_length (size : Int) (data : List Nat) :
    ((readN size data).2).length ≤ data.length := by
  unfold readN
  split
  · simp
  · simp

lemma readLongAux_ok_length {b n shift m : Nat} {data rem : List Nat}
    (h : readLongAux b n shift data = .ok (m, rem)) : rem.length ≤ data.length := by
  induction data generalizing b n shift with
  | nil =>
    unfold readLongAux at h
    split at h
    · cases h
    · cases h
      exact le_refl _
  | cons b' rest ih =>
    unfold readLongAux at h
    split at h
    · exact le_trans (ih h) (by simp)
    · cases h
      exact le_refl _

lemma read_long_ok_length {v : Int} {data rem : List Nat}
    (h : read_long data = .ok (v, rem)) : rem.length < data.length := by
  unfold read_long at h
  split at h
  · cases h
  · rename_i b rest
    split at h
    · cases h
    · rename_i n rem' heq
      cases h
      exact Nat.lt_succ_of_le (readLongAux_ok_length heq)

lemma read_bytes_ok_length {bs : List Nat} {data rem : List Nat}
    (h : read_bytes data = .ok (bs, rem)) : rem.length < data.length := by
  unfold read_bytes at h
  split at h
  · cases h
  · rename_i v rest heq
    injection h with h'
    have hrem : rem = (readN v rest).2 := by rw [h']
    rw [hrem]
    exact lt_of_le_of_lt (readN_snd_length v rest) (read_long_ok_length heq)

lemma skipEntries_ok_length {k : Nat} {data rem : List Nat}
    (h : skipEntries k data = .ok rem) : rem.length ≤ data.length := by
  induction k generalizing data with
  | zero =>
    cases h
    exact le_refl _
  | succ k ih =>
    unfold skipEntries at h
    split at h
    · cases h
    · rename_i bs1 d1 h1
      split at h
      · cases h
      · rename_i bs2 d2 h2
        exact le_trans (ih h)
          (le_trans (le_of_lt (read_bytes_ok_length h2)) (le_of_lt (read_bytes_ok_length h1)))

lemma readMetaLoopAux_ok_length {fuel : Nat} {data rem : List Nat}
    (h : readMetaLoopAux fuel data = .ok rem) : rem.length ≤ data.length := by
  induction fuel generalizing data with
  | zero => cases h
  | succ fuel ih =>
    unfold readMetaLoopAux at h
    split at h
    · cases h
    · rename_i nk rest h1
      split at h
      · cases h
        exact le_of_lt (read_long_ok_length h1)
      · split at h
        · cases h
        · rename_i d2 h2
          exact le_trans (ih h)
            (le_trans (skipEntries_ok_length h2) (le_of_lt (read_long_ok_length h1)))

/-- The fuel of `readMetaLoopAux` is immaterial once it exceeds the
stream length: every iteration consumes at least one byte. -/
lemma readMetaLoopAux_fuel {fuel fuel' : Nat} {data : List Nat}
    (h : data.length < fuel) (h' : data.length < fuel') :
    readMetaLoopAux fuel data = readMetaLoopAux fuel' data := by
  induction fuel generalizing fuel' data with
  | zero => omega
  | succ fuel ih =>
    obtain ⟨f', rfl⟩ : ∃ f', fuel' = f' + 1 := ⟨fuel' - 1, by omega⟩
    unfold readMetaLoopAux
    split
    · rfl
    · rename_i nk rest h1
      have hrest := read_long_ok_length h1
      split
      · rfl
      · split
        · rfl
        · rename_i d2 h2
          have hd2 := skipEntries_ok_length h2
          exact ih (by omega) (by omega)

/-! Bit arithmetic for the 7-bit varint accumulation. -/

lemma lor_shiftLeft_add {a : Nat} (b k : Nat) (h : a < 2 ^ k) :
    a ||| (b <<< k) = a + b * 2 ^ k := by
  apply Nat.eq_of_testBit_eq
  intro j
  rw [Nat.testBit_lor, Nat.testBit_shiftLeft]
  have hrepr : a + b * 2 ^ k = 2 ^ k * b + a := by ring
  rw [hrepr, Nat.testBit_mul_pow_two_add b h j]
  by_cases hj : j < k
  · have hge : ¬ (j ≥ k) := by omega
    simp [hj, hge]
  · have hge : j ≥ k := by omega
    have hfalse : a.testBit j = false :=
      Nat.testBit_eq_false_of_lt
        (lt_of_lt_of_le h (Nat.pow_le_pow_right (by norm_num) hge))
    simp [hj, hge, hfalse]

lemma and_0x7F (m : Nat) : m &&& 0x7F = m % 128 := by
  simpa using Nat.and_pow_two_sub_one_eq_mod m 7

lemma and_0x80_eq_zero {m : Nat} (h : m < 128) : m &&& 0x80 = 0 := by
  have h2 := Nat.and_two_pow m 7
  rw [Nat.testBit_eq_false_of_lt (by simpa using h)] at h2
  simpa using h2

lemma and_0x80_ne_zero {r : Nat} (h : r < 128) : (128 + r) &&& 0x80 ≠ 0 := by
  have ht : (128 + r).testBit 7 = true := by
    have h2 := Nat.testBit_mul_pow_two_add 1 (show r < 2 ^ 7 by simpa using h) 7
    norm_num at h2
    exact h2
  have h2 := Nat.and_two_pow (128 + r) 7
  rw [ht] at h2
  norm_num at h2
  omega

/-- When the last byte read has its top bit clear, the loop stops at
once and returns the accumulator. -/
lemma readLongAux_clear {b n shift : Nat} (data : List Nat) (h : b &&& 0x80 = 0) :
    readLongAux b n shift data = .ok (n, data) := by
  cases data <;> simp [readLongAux, h]

/-! Correctness of the varint loop against the reference encoder. -/

lemma encodeVarintAux_lt {m : Nat} (fuel : Nat) (h : m < 128) :
    encodeVarintAux fuel m = [m] := by
  cases fuel <;> simp [encodeVarintAux, h]

lemma readLongAux_encode :
    ∀ fuel m, m ≤ fuel → ∀ b acc shift tail, b &&& 0x80 ≠ 0 → acc < 2 ^ shift →
      readLongAux b acc shift (encodeVarintAux fuel m ++ tail) =
        .ok (acc + m * 2 ^ shift, tail) := by
  intro fuel
  induction fuel with
  | zero =>
    intro m hm b acc shift tail hb hacc
    have hm0 : m = 0 := by omega
    subst hm0
    show readLongAux b acc shift (0 :: tail) = _
    unfold readLongAux
    rw [if_pos hb]
    have h1 : (0 &&& 0x7F) <<< shift = 0 := by simp
    have h2 : acc ||| 0 = acc := by simp
    rw [h1, h2, readLongAux_clear tail (by simp)]
    simp
  | succ fuel ih =>
    intro m hm b acc shift tail hb hacc
    by_cases hlt : m < 128
    · rw [encodeVarintAux_lt (fuel + 1) hlt]
      show readLongAux b acc shift (m :: tail) = _
      unfold readLongAux
      rw [if_pos hb]
      have h1 : m &&& 0x7F = m := by rw [and_0x7F, Nat.mod_eq_of_lt hlt]
      rw [h1, lor_shiftLeft_add m shift hacc,
        readLongAux_clear tail (and_0x80_eq_zero hlt)]
    · push_neg at hlt
      have hmod : m % 128 < 128 := Nat.mod_lt _ (by norm_num)
      unfold encodeVarintAux
      rw [if_neg (by omega), List.cons_append]
      unfold readLongAux
      rw [if_pos hb]
      have h1 : (128 + m % 128) &&& 0x7F = m % 128 := by
        rw [and_0x7F, Nat.add_mod_left, Nat.mod_eq_of_lt hmod]
      rw [h1, lor_shiftLeft_add (m % 128) shift hacc]
      have hdiv : m / 128 ≤ fuel := by
        have := Nat.div_lt_self (show 0 < m by omega) (show 1 < 128 by norm_num)
        omega
      have hacc' : acc + m % 128 * 2 ^ shift < 2 ^ (shift + 7) := by
        have h2 : m % 128 * 2 ^ shift ≤ 127 * 2 ^ shift :=
          Nat.mul_le_mul_right _ (by omega)
        have h3 : (2 : Nat) ^ (shift + 7) = 2 ^ shift + 127 * 2 ^ shift := by
          rw [pow_add]
          ring
        omega
      rw [ih (m / 128) hdiv (128 + m % 128) _ (shift + 7) tail (and_0x80_ne_zero hmod) hacc']
      have hassemble :
          acc + m % 128 * 2 ^ shift + m / 128 * 2 ^ (shift + 7) = acc + m * 2 ^ shift := by
        have hdm : 128 * (m / 128) + m % 128 = m := Nat.div_add_mod m 128
        have hp : (2 : Nat) ^ (shift + 7) = 2 ^ shift * 128 := by
          rw [pow_add]
          norm_num
        calc acc + m % 128 * 2 ^ shift + m / 128 * 2 ^ (shift + 7)
            = acc + (128 * (m / 128) + m % 128) * 2 ^ shift := by rw [hp]; ring
          _ = acc + m * 2 ^ shift := by rw [hdm]
      rw [hassemble]

/-- Zig-zag decoding inverts zig-zag encoding. -/
lemma zigzagDecode_encode (i : Int) : zigzagDecode (zigzagEncode i) = i := by
  unfold zigzagEncode zigzagDecode
  cases i with
  | ofNat n =>
    rw [if_pos (by exact Int.ofNat_nonneg n)]
    have ht : Int.toNat (Int.ofNat n) = n := rfl
    rw [ht]
    have h1 : (2 * n) >>> 1 = n := by
      rw [Nat.shiftRight_eq_div_pow]
      simp
    have h2 : (2 * n) &&& 1 = 0 := by
      rw [Nat.and_one_is_mod]
      omega
    rw [h1, h2]
    show Int.xor (Int.ofNat n) (-(Int.ofNat 0)) = Int.ofNat n
    rw [show -(Int.ofNat 0) = Int.ofNat 0 from rfl]
    show Int.ofNat (n ^^^ 0) = Int.ofNat n
    simp
  | negSucc n =>
    rw [if_neg (by exact not_le.mpr (Int.negSucc_lt_zero n))]
    have ht : (-(Int.negSucc n)).toNat = n + 1 := rfl
    rw [ht]
    have hm : 2 * (n + 1) - 1 = 2 * n + 1 := by omega
    rw [hm]
    have h1 : (2 * n + 1) >>> 1 = n := by
      rw [Nat.shiftRight_eq_div_pow]
      omega
    have h2 : (2 * n + 1) &&& 1 = 1 := by
      rw [Nat.and_one_is_mod]
      omega
    rw [h1, h2]
    show Int.xor (Int.ofNat n) (-(Int.ofNat 1)) = Int.negSucc n
    rw [show -(Int.ofNat 1) = Int.negSucc 0 from rfl]
    show Int.negSucc (n ^^^ 0) = Int.negSucc n
    simp

/-- Unfolding equation of `read_long` on a non-empty stream. -/
lemma read_long_cons (b : Nat) (rest : List Nat) :
    read_long (b :: rest) =
      match readLongAux b (b &&& 0x7F) 7 rest with
      | .error e => .error e
      | .ok (n, rem) => .ok (zigzagDecode n, rem) := rfl

/-- Decoding inverts encoding for a whole long, leaving the rest of the
stream untouched. -/
lemma read_long_encode (i : Int) (tail : List Nat) :
    read_long (encodeLong i ++ tail) = .ok (i, tail) := by
  unfold encodeLong encodeVarint
  by_cases hlt : zigzagEncode i < 128
  · rw [encodeVarintAux_lt (zigzagEncode i) hlt]
    show read_long (zigzagEncode i :: tail) = _
    rw [read_long_cons]
    have h1 : zigzagEncode i &&& 0x7F = zigzagEncode i := by
      rw [and_0x7F, Nat.mod_eq_of_lt hlt]
    rw [h1, readLongAux_clear tail (and_0x80_eq_zero hlt)]
    show Except.ok (zigzagDecode (zigzagEncode i), tail) = _
    rw [zigzagDecode_encode]
  · push_neg at hlt
    have hmod : zigzagEncode i % 128 < 128 := Nat.mod_lt _ (by norm_num)
    obtain ⟨f, hf⟩ : ∃ f, zigzagEncode i = f + 1 := ⟨zigzagEncode i - 1, by omega⟩
    rw [hf] at hlt hmod ⊢
    unfold encodeVarintAux
    rw [if_neg (by omega), List.cons_append, read_long_cons]
    have h1 : (128 + (f + 1) % 128) &&& 0x7F = (f + 1) % 128 := by
      rw [and_0x7F, Nat.add_mod_left, Nat.mod_eq_of_lt hmod]
    rw [h1]
    have hdiv : (f + 1) / 128 ≤ f := by
      have := Nat.div_lt_self (show 0 < f + 1 by omega) (show 1 < 128 by norm_num)
      omega
    rw [readLongAux_encode f ((f + 1) / 128) hdiv (128 + (f + 1) % 128) _ 7 tail
      (and_0x80_ne_zero hmod) (by simpa using hmod)]
    have hsum : (f + 1) % 128 + (f + 1) / 128 * 2 ^ 7 = f + 1 := by
      have hdm : 128 * ((f + 1) / 128) + (f + 1) % 128 = f + 1 := Nat.div_add_mod (f + 1) 128
      norm_num
      omega
    show Except.ok (zigzagDecode ((f + 1) % 128 + (f + 1) / 128 * 2 ^ 7), tail) = _
    rw [hsum, ← hf, zigzagDecode_encode]

/-! Parsing a well-formed header stream produced by the reference
encoders. -/

lemma read_bytes_encode (bs tail : List Nat) :
    read_bytes (encodeBytes bs ++ tail) = .ok (bs, tail) := by
  unfold encodeBytes
  rw [List.append_assoc]
  unfold read_bytes
  rw [read_long_encode (bs.length : Int) (bs ++ tail)]
  dsimp only
  unfold readN
  rw [if_neg (by exact not_lt.mpr (Int.natCast_nonneg _)), Int.toNat_natCast,
    List.take_left, List.drop_left]

/-- Unfolding equation of `skipEntries` for a positive count. -/
lemma skipEntries_succ (k : Nat) (data : List Nat) :
    skipEntries (k + 1) data =
      match read_bytes data with
      | .error e => .error e
      | .ok (_, d1) =>
        match read_bytes d1 with
        | .error e => .error e
        | .ok (_, d2) => skipEntries k d2 := rfl

lemma skipEntries_encode (entries : List (List Nat × List Nat)) (tail : List Nat) :
    skipEntries entries.length
      ((entries.flatMap fun kv => encodeBytes kv.1 ++ encodeBytes kv.2) ++ tail) = .ok tail := by
  induction entries with
  | nil => simp [skipEntries]
  | cons kv rest ih =>
    rw [List.length_cons, List.flatMap_cons, List.append_assoc, List.append_assoc,
      skipEntries_succ, read_bytes_encode kv.1]
    dsimp only
    rw [read_bytes_encode kv.2]
    dsimp only
    exact ih

/-- Unfolding equation of `readMetaLoopAux` with positive fuel. -/
lemma readMetaLoopAux_succ (fuel : Nat) (data : List Nat) :
    readMetaLoopAux (fuel + 1) data =
      match read_long data with
      | .error e => .error e
      | .ok (n_keys, rest) =>
        if n_keys = 0 then .ok rest
        else
          match skipEntries n_keys.toNat rest with
          | .error e => .error e
          | .ok d2 => readMetaLoopAux fuel d2 := rfl

lemma encodeVarintAux_ne_nil (fuel n : Nat) : encodeVarintAux fuel n ≠ [] := by
  cases fuel with
  | zero => simp [encodeVarintAux]
  | succ fuel =>
    unfold encodeVarintAux
    split <;> simp

lemma encodeMetaBlock_length_pos (entries : List (List Nat × List Nat)) :
    0 < (encodeMetaBlock entries).length := by
  unfold encodeMetaBlock encodeLong encodeVarint
  rw [List.length_append]
  have := List.length_pos.mpr (encodeVarintAux_ne_nil (zigzagEncode entries.length)
    (zigzagEncode entries.length))
  omega

lemma flatMap_metaBlock_length (blocks : List (List (List Nat × List Nat))) :
    blocks.length ≤ (blocks.flatMap encodeMetaBlock).length := by
  induction blocks with
  | nil => simp
  | cons blk rest ih =>
    rw [List.flatMap_cons, List.length_cons, List.length_append]
    have := encodeMetaBlock_length_pos blk
    omega

lemma readMetaLoopAux_encode (blocks : List (List (List Nat × List Nat)))
    (hb : ∀ blk ∈ blocks, blk ≠ []) (tail : List Nat) :
    ∀ fuel, blocks.length < fuel →
      readMetaLoopAux fuel (blocks.flatMap encodeMetaBlock ++ (encodeLong 0 ++ tail)) =
        .ok tail := by
  induction blocks with
  | nil =>
    intro fuel hf
    obtain ⟨f, rfl⟩ : ∃ f, fuel = f + 1 := ⟨fuel - 1, by omega⟩
    rw [List.flatMap_nil, List.nil_append, readMetaLoopAux_succ, read_long_encode 0 tail]
    dsimp only
    rw [if_pos rfl]
  | cons blk rest ih =>
    intro fuel hf
    obtain ⟨f, rfl⟩ : ∃ f, fuel = f + 1 := ⟨fuel - 1, by omega⟩
    have hne : blk ≠ [] := hb blk (by simp)
    rw [List.flatMap_cons,
      show encodeMetaBlock blk = encodeLong (blk.length : Int) ++
        (blk.flatMap fun kv => encodeBytes kv.1 ++ encodeBytes kv.2) from rfl,
      List.append_assoc, List.append_assoc, readMetaLoopAux_succ,
      read_long_encode (blk.length : Int)]
    dsimp only
    rw [if_neg (by simpa using (List.length_pos.mpr hne).ne'), Int.toNat_natCast,
      skipEntries_encode blk]
    dsimp only
    refine ih (fun b hbmem => hb b (by simp [hbmem])) f ?_
    simp only [List.length_cons] at hf
    omega

/-- Parsing the reference encoding of a header: `read_header` succeeds,
returns an empty metadata mapping, the encoded sync token, and
`head_bytes` equal to the whole encoded header, leaving the stream right
after the header. -/
lemma read_header_encode (blocks : List (List (List Nat × List Nat))) (sync rest : List Nat)
    (hb : ∀ blk ∈ blocks, blk ≠ []) (hs : sync.length = SYNC_SIZE) :
    read_header (headerBytes blocks sync ++ rest) =
      .ok ({ meta := [], sync := sync,
             header_size := (headerBytes blocks sync).length,
             head_bytes := headerBytes blocks sync }, rest) := by
  have h4 : readN 4 (headerBytes blocks sync ++ rest) =
      (MAGIC, blocks.flatMap encodeMetaBlock ++ (encodeLong 0 ++ (sync ++ rest))) := by
    unfold readN headerBytes
    rw [if_neg (by norm_num), show ((4 : Int)).toNat = 4 from rfl,
      List.append_assoc, List.append_assoc, List.append_assoc,
      show (4 : Nat) = MAGIC.length from rfl, List.take_left, List.drop_left]
  have hlen : blocks.length <
      (blocks.flatMap encodeMetaBlock ++ (encodeLong 0 ++ (sync ++ rest))).length + 1 := by
    have h1 := flatMap_metaBlock_length blocks
    rw [List.length_append]
    omega
  have hmeta : readMetaLoop
      (blocks.flatMap encodeMetaBlock ++ (encodeLong 0 ++ (sync ++ rest))) =
      .ok (sync ++ rest) := by
    unfold readMetaLoop
    exact readMetaLoopAux_encode blocks hb (sync ++ rest) _ hlen
  have h16 : readN (SYNC_SIZE : Int) (sync ++ rest) = (sync, rest) := by
    unfold readN
    rw [if_neg (by norm_num [SYNC_SIZE]),
      show ((SYNC_SIZE : Nat) : Int).toNat = sync.length by rw [Int.toNat_natCast, hs],
      List.take_left, List.drop_left]
  have hhs : (headerBytes blocks sync ++ rest).length - rest.length =
      (headerBytes blocks sync).length := by
    rw [List.length_append]
    omega
  have hfinal : readN (((headerBytes blocks sync).length : Nat) : Int)
      (headerBytes blocks sync ++ rest) = (headerBytes blocks sync, rest) := by
    unfold readN
    rw [if_neg (not_lt.mpr (Int.natCast_nonneg _)), Int.toNat_natCast,
      List.take_left, List.drop_left]
  unfold read_header
  simp only [h4]
  rw [if_neg (by simp)]
  simp only [hmeta, h16, hhs, hfinal]

/-! Helpers for the partition-planning theorems. -/

lemma range'_eq_map (B : Nat) : ∀ n s, List.range' s n B = (List.range n).map fun i => s + i * B := by
  intro n
  induction n with
  | zero => intro s; simp
  | succ n ih =>
    intro s
    rw [List.range'_succ, ih (s + B), List.range_succ_eq_map, List.map_cons, List.map_map]
    refine congrArg₂ _ (by simp) ?_
    refine List.map_congr_left fun i hi => ?_
    simp only [Function.comp_apply, Nat.succ_eq_add_one]
    ring

lemma sum_map_const {α : Type} (l : List α) (B : Nat) : (l.map fun _ => B).sum = l.length * B := by
  induction l with
  | nil => simp
  | cons a l ih =>
    simp only [List.map_cons, List.sum_cons, List.length_cons, ih]
    ring

/-- Claim C1, amended: the planning loop of `read_avro` produces the
windows `(0, B), (B, B), ..., ((k-1)B, B)` with `k = ceil(S / B)`; the
offsets are the multiples of `B` below `S` (so the windows are ordered,
contiguous and non-overlapping and cover `[0, S)`, and `S = 0` gives
zero windows), but every window, the last one included, has length
exactly `B`: the last length is not clipped to `S - lastOffset`, so the
lengths sum to `ceil(S / B) * B`, not to `S`. -/
theorem read_avro_plan_unclipped (S B : Nat) (hB : 0 < B) :
    read_avro_plan S B = (List.range ((S + B - 1) / B)).map (fun i => (i * B, B)) ∧
    ((read_avro_plan S B).map Prod.snd).sum = ((S + B - 1) / B) * B ∧
    (read_avro_plan S B).all (fun w => decide (w.1 < S)) = true := by
  have hplan : read_avro_plan S B = (List.range ((S + B - 1) / B)).map fun i => (i * B, B) := by
    unfold read_avro_plan
    rw [range'_eq_map B _ 0, List.map_map]
    refine List.map_congr_left fun i hi => ?_
    simp
  refine ⟨hplan, ?_, ?_⟩
  · rw [hplan, List.map_map]
    show ((List.range ((S + B - 1) / B)).map fun _ => B).sum = _
    rw [sum_map_const, List.length_range]
  · rw [hplan, List.all_eq_true]
    intro w hw
    rw [List.mem_map] at hw
    obtain ⟨i, hi, rfl⟩ := hw
    rw [List.mem_range] at hi
    simp only [decide_eq_true_eq]
    show i * B < S
    have h1 : (i + 1) * B ≤ ((S + B - 1) / B) * B := Nat.mul_le_mul_right _ (by omega)
    have h2 : ((S + B - 1) / B) * B ≤ S + B - 1 := Nat.div_mul_le_self _ _
    have h3 : (i + 1) * B = i * B + B := by ring
    omega

/-- Claim C1, counterexample: for file size 5 and partition size 2 the
planner produces the windows `(0,2), (2,2), (4,2)` whose lengths sum to
6, not to the file size 5; the last window is not clipped to length 1. -/
theorem read_avro_plan_counterexample :
    read_avro_plan 5 2 = [(0, 2), (2, 2), (4, 2)] ∧
    ((read_avro_plan 5 2).map Prod.snd).sum ≠ 5 := by
  decide

/-- Witness for `read_avro_plan_unclipped` at `S = 5`, `B = 2`. -/
theorem read_avro_plan_unclipped_witness :
    0 < 2 ∧
    (read_avro_plan 5 2 = (List.range ((5 + 2 - 1) / 2)).map (fun i => (i * 2, 2)) ∧
     ((read_avro_plan 5 2).map Prod.snd).sum = ((5 + 2 - 1) / 2) * 2 ∧
     (read_avro_plan 5 2).all (fun w => decide (w.1 < 5)) = true) :=
  ⟨by decide, read_avro_plan_unclipped 5 2 (by decide)⟩

/-- Claim C3, amended: when the decoded length is negative, `read_bytes`
does not fail: the negative size is passed to `fo.read`, which by the
`io.BytesIO` convention reads all remaining bytes of the source. -/
theorem read_bytes_negative_length (data : List Nat) (v : Int) (rest : List Nat)
    (hl : read_long data = .ok (v, rest)) (hv : v < 0) :
    read_bytes data = .ok (rest, []) := by
  unfold read_bytes
  rw [hl]
  dsimp only
  unfold readN
  rw [if_pos hv]

/-- Claim C3, counterexample: on the source `[0x01, 0xAA]` the varint
decodes to `-1`, and `read_bytes` returns the remaining byte instead of
failing with a NegativeLength error (no such check exists in the code). -/
theorem read_bytes_negative_counterexample :
    read_long [1, 170] = .ok (-1, [170]) ∧ read_bytes [1, 170] = .ok ([170], []) :=
  ⟨by decide, by decide⟩

/-- Witness for `read_bytes_negative_length` on `[0x03, 7, 7]`
(decoded length `-2`). -/
theorem read_bytes_negative_length_witness :
    read_long [3, 7, 7] = .ok (-2, [7, 7]) ∧ (-2 : Int) < 0 ∧
    read_bytes [3, 7, 7] = .ok ([7, 7], []) :=
  ⟨by decide, by decide, read_bytes_negative_length [3, 7, 7] (-2) [7, 7] (by decide) (by decide)⟩

/-- Claim C4, amended: when the decoded length `n` exceeds the bytes
remaining, `read_bytes` does not fail: `fo.read(n)` returns the fewer
than `n` bytes that remain, exhausting the source. -/
theorem read_bytes_short_read (data : List Nat) (v : Int) (rest : List Nat)
    (hl : read_long data = .ok (v, rest)) (h0 : 0 ≤ v) (hshort : rest.length < v.toNat) :
    read_bytes data = .ok (rest, []) := by
  unfold read_bytes
  rw [hl]
  dsimp only
  unfold readN
  rw [if_neg (not_lt.mpr h0), List.take_of_length_le (by omega),
    List.drop_eq_nil_of_le (by omega)]

/-- Claim C4, counterexample: on the source `[0x04, 0xAA]` the varint
decodes to length 2 but only one byte remains; `read_bytes` returns that
single byte instead of failing with an UnexpectedEndOfStream error. -/
theorem read_bytes_short_counterexample :
    read_long [4, 170] = .ok (2, [170]) ∧ read_bytes [4, 170] = .ok ([170], []) :=
  ⟨by decide, by decide⟩

/-- Witness for `read_bytes_short_read` on `[0x06, 1, 2]` (decoded
length 3, two bytes remaining). -/
theorem read_bytes_short_read_witness :
    read_long [6, 1, 2] = .ok (3, [1, 2]) ∧ (0 : Int) ≤ 3 ∧
    ([1, 2] : List Nat).length < (3 : Int).toNat ∧
    read_bytes [6, 1, 2] = .ok ([1, 2], []) :=
  ⟨by decide, by decide, by decide,
   read_bytes_short_read [6, 1, 2] 3 [1, 2] (by decide) (by decide) (by decide)⟩

/-- Claim C5: zig-zag varint-encoding any signed integer and decoding it
back with `read_long` yields the original integer (Python integers are
unbounded, so this holds for every integer, in particular 0, -1 and any
chosen minimum/maximum). -/
theorem read_long_zigzag_roundtrip (i : Int) : read_long (encodeLong i) = .ok (i, []) := by
  have h := read_long_encode i []
  simpa using h

/-- Claim C6: `read_chunk` returns the buffer unchanged when its first
4 bytes equal the magic marker, and otherwise returns exactly
`head_bytes` concatenated with the buffer. -/
theorem read_chunk_prepend (head : Header) (buf : List Nat) :
    read_chunk head buf = if buf.take 4 = MAGIC then buf else head.head_bytes ++ buf := by
  unfold read_chunk
  by_cases hp : buf.take 4 = MAGIC
  · have hpre : MAGIC.isPrefixOf buf = true := by
      rw [List.isPrefixOf_iff_prefix, List.prefix_iff_eq_take]
      exact hp.symm
    simp [hpre, hp]
  · have hpre : ¬ (MAGIC.isPrefixOf buf = true) := by
      rw [List.isPrefixOf_iff_prefix, List.prefix_iff_eq_take]
      intro hc
      exact hp hc.symm
    simp [hpre, hp]

/-- Claim C9: on an empty buffer from the block locator, `read_chunk`
does not fail; it returns exactly the header bytes (a chunk with zero
complete blocks). -/
theorem read_chunk_empty (head : Header) : read_chunk head [] = head.head_bytes := by
  unfold read_chunk
  rw [if_neg (by decide), List.append_nil]

/-- Claim C7: when the first four bytes of the source differ from the
magic marker, `read_header` fails with the bad-magic error; this holds
for every suffix after those four bytes, so no metadata is parsed. -/
theorem read_header_bad_magic (data : List Nat) (h : data.take 4 ≠ MAGIC) :
    read_header data = .error .badMagic := by
  unfold read_header
  have h1 : (readN 4 data).1 = data.take 4 := by
    unfold readN
    rw [if_neg (by norm_num), show ((4 : Int)).toNat = 4 from rfl]
  rw [if_pos (by rw [h1]; exact h)]

/-- Witness for `read_header_bad_magic` on `[1, 2, 3]`. -/
theorem read_header_bad_magic_witness :
    (([1, 2, 3] : List Nat).take 4 ≠ MAGIC) ∧ read_header [1, 2, 3] = .error .badMagic :=
  ⟨by decide, read_header_bad_magic [1, 2, 3] (by decide)⟩

/-- Claim C2, amended: whenever `read_header` succeeds, the metadata
mapping it returns is empty — the reader reads the framed key and value
of every entry but discards them (`# ignore dtype mapping for bag
version`), so no key from the stream ever appears in the mapping. -/
theorem read_header_meta_empty (data : List Nat) (h : Header) (rem : List Nat)
    (hok : read_header data = .ok (h, rem)) : h.meta = [] := by
  unfold read_header at hok
  split at hok
  · cases hok
  · split at hok
    · cases hok
    · rename_i d1 heq
      injection hok with h'
      have h3 := congrArg (fun p : Header × List Nat => p.1.meta) h'
      dsimp only at h3
      rw [← h3]

/-- A concrete well-formed header stream with one metadata entry,
key `[0x61]` and value `[0x62]`. -/
def c2sync : List Nat := List.replicate 16 170

/-- The header stream of the C2 example. -/
def c2stream : List Nat := headerBytes [[([97], [98])]] c2sync

/-- The header value `read_header` returns on `c2stream`. -/
def c2hdr : Header :=
  { meta := [], sync := c2sync, header_size := c2stream.length, head_bytes := c2stream }

/-- Claim C2, counterexample: `c2stream` contains one metadata entry
with key `[0x61]`, yet the mapping returned by `read_header` is empty,
so the mapping does not contain the keys present in the stream. -/
theorem read_header_meta_counterexample :
    c2stream = MAGIC ++ encodeLong 1 ++ encodeBytes [97] ++ encodeBytes [98] ++
      encodeLong 0 ++ c2sync ∧
    read_header c2stream = .ok (c2hdr, []) ∧ c2hdr.meta = [] :=
  ⟨by decide, by decide, by decide⟩

/-- Witness for `read_header_meta_empty` on `c2stream`. -/
theorem read_header_meta_empty_witness :
    read_header c2stream = .ok (c2hdr, []) ∧ c2hdr.meta = [] :=
  ⟨by decide, read_header_meta_empty c2stream c2hdr [] (by decide)⟩

/-- Claim C8: on a well-formed header stream (reference-encoded
metadata blocks followed by a 16-byte sync token and arbitrary further
bytes), the header returned by `read_header` has `head_bytes` beginning
with the 4-byte magic marker and ending exactly at the file-level sync
sentinel — its last 16 bytes equal the sync token — and `header_size`
equals the length of `head_bytes`. -/
theorem read_header_invariant (blocks : List (List (List Nat × List Nat)))
    (sync rest : List Nat)
    (hb : blocks.all (fun blk => !blk.isEmpty) = true) (hs : sync.length = SYNC_SIZE)
    (h : Header) (rem : List Nat)
    (hok : read_header (headerBytes blocks sync ++ rest) = .ok (h, rem)) :
    h.head_bytes.take 4 = MAGIC ∧
    h.head_bytes.drop (h.head_bytes.length - SYNC_SIZE) = h.sync ∧
    h.header_size = h.head_bytes.length := by
  have hb' : ∀ blk ∈ blocks, blk ≠ [] := by
    intro blk hmem
    have h1 := List.all_eq_true.mp hb blk hmem
    simpa using h1
  rw [read_header_encode blocks sync rest hb' hs] at hok
  injection hok with h'
  have hh : h = { meta := [], sync := sync,
                  header_size := (headerBytes blocks sync).length,
                  head_bytes := headerBytes blocks sync } :=
    (congrArg Prod.fst h').symm
  subst hh
  dsimp only
  refine ⟨?_, ?_, rfl⟩
  · unfold headerBytes
    rw [List.append_assoc, List.append_assoc, show (4 : Nat) = MAGIC.length from rfl,
      List.take_left]
  · unfold headerBytes
    rw [List.length_append, hs, Nat.add_sub_cancel, List.drop_left]

/-- Blocks of the C8 witness stream: one block with one entry. -/
def c8blocks : List (List (List Nat × List Nat)) := [[([97], [98])]]

/-- Sync token of the C8 witness stream. -/
def c8sync : List Nat := List.replicate 16 171

/-- The header value `read_header` returns on the C8 witness stream. -/
def c8hdr : Header :=
  { meta := [], sync := c8sync, header_size := (headerBytes c8blocks c8sync).length,
    head_bytes := headerBytes c8blocks c8sync }

/-- Witness for `read_header_invariant` on a concrete stream with two
trailing bytes after the header. -/
theorem read_header_invariant_witness :
    (c8blocks.all (fun blk => !blk.isEmpty) = true) ∧ c8sync.length = SYNC_SIZE ∧
    read_header (headerBytes c8blocks c8sync ++ [5, 6]) = .ok (c8hdr, [5, 6]) ∧
    (c8hdr.head_bytes.take 4 = MAGIC ∧
     c8hdr.head_bytes.drop (c8hdr.head_bytes.length - SYNC_SIZE) = c8hdr.sync ∧
     c8hdr.header_size = c8hdr.head_bytes.length) :=
  ⟨by decide, by decide, by decide,
   read_header_invariant c8blocks c8sync [5, 6] (by decide) (by decide) c8hdr [5, 6]
     (by decide)⟩

/-- Claim C10: when `read_header` succeeds, the stream position on
return equals the returned `header_size` (the remainder is the file past
offset `header_size`, so the next read starts at the first data block),
and `head_bytes` has length exactly `header_size`.  The source is only
read, never modified — the model returns the untouched suffix of the
original bytes. -/
theorem read_header_position (data : List Nat) (h : Header) (rem : List Nat)
    (hok : read_header data = .ok (h, rem)) :
    rem = data.drop h.header_size ∧ h.head_bytes.length = h.header_size ∧
    data.length - rem.length = h.header_size := by
  unfold read_header at hok
  split at hok
  · cases hok
  · split at hok
    · cases hok
    · rename_i d1 heq
      have hd1 : d1.length ≤ data.length := by
        unfold readMetaLoop at heq
        exact le_trans (readMetaLoopAux_ok_length heq) (readN_snd_length 4 data)
      have hd2 : ((readN (SYNC_SIZE : Int) d1).2).length ≤ data.length :=
        le_trans (readN_snd_length _ d1) hd1
      have hnle : data.length - ((readN (SYNC_SIZE : Int) d1).2).length ≤ data.length :=
        Nat.sub_le _ _
      injection hok with h'
      have h5 := congrArg (fun p : Header × List Nat => p.1.header_size) h'
      have h6 := congrArg (fun p : Header × List Nat => p.1.head_bytes) h'
      have h7 := congrArg (fun p : Header × List Nat => p.2) h'
      dsimp only at h5 h6 h7
      have hreadn :
          readN ((data.length - ((readN (SYNC_SIZE : Int) d1).2).length : Nat) : Int) data =
          (data.take (data.length - ((readN (SYNC_SIZE : Int) d1).2).length),
           data.drop (data.length - ((readN (SYNC_SIZE : Int) d1).2).length)) := by
        unfold readN
        rw [if_neg (not_lt.mpr (Int.natCast_nonneg _)), Int.toNat_natCast]
      rw [hreadn] at h6 h7
      dsimp only at h6 h7
      refine ⟨?_, ?_, ?_⟩
      · rw [← h7, ← h5]
      · rw [← h6, ← h5, List.length_take]
        omega
      · rw [← h7, ← h5, List.length_drop]
        omega

/-- A minimal header stream for the C10 witness: magic, empty metadata,
sync token, nothing after. -/
def c10stream : List Nat := MAGIC ++ encodeLong 0 ++ List.replicate 16 7

/-- The header value `read_header` returns on `c10stream`. -/
def c10hdr : Header :=
  { meta := [], sync := List.replicate 16 7, header_size := 21, head_bytes := c10stream }

/-- Witness for `read_header_position` on `c10stream`. -/
theorem read_header_position_witness :
    read_header c10stream = .ok (c10hdr, []) ∧
    (([] : List Nat) = c10stream.drop c10hdr.header_size ∧
     c10hdr.head_bytes.length = c10hdr.header_size ∧
     c10stream.length - ([] : List Nat).length = c10hdr.header_size) :=
  ⟨by decide, read_header_position c10stream c10hdr [] (by decide)⟩

end DaskAvro
